import Mathlib

/-!
Verification of the `subset_CRC_compress` repository (source file `SCC.py`)
against its natural-language specification.

Byte strings are modelled as `List Nat` (each element a byte value 0..255
where it matters).  Machine integers are `Nat` with explicit masking,
mirroring the Python source, whose integers are unbounded and which masks
with `& 0xFFFF` exactly where the source does.
-/

set_option maxRecDepth 100000

namespace SCC

/-- One shift round of the CCITT CRC register, verbatim from the body of the
inner `for _ in range(8)` loop of `crc16_ccitt` in `SCC.py`:
`if crc & 0x8000: crc = (crc << 1) ^ 0x1021 else: crc <<= 1`.
Python truthiness of `crc & 0x8000` is the test `≠ 0`. -/
def crcRound (crc : Nat) : Nat :=
  if crc &&& 0x8000 ≠ 0 then (crc <<< 1) ^^^ 0x1021 else crc <<< 1

/-- `n` iterations of `crcRound` (the source runs exactly 8 per byte). -/
def crcRounds : Nat → Nat → Nat
  | 0, crc => crc
  | n + 1, crc => crcRounds n (crcRound crc)

/-- `crc16_ccitt(data, crc=0xFFFF)` from `SCC.py`: for each byte,
XOR it into the top byte of the register (`crc ^= b << 8`), run 8 shift
rounds, then mask with `& 0xFFFF` (the source masks once per byte, after
the 8 rounds). -/
def crc16_ccitt (data : List Nat) (crc : Nat := 0xFFFF) : Nat :=
  data.foldl (fun crc b => crcRounds 8 (crc ^^^ (b <<< 8)) &&& 0xFFFF) crc

/-- The CRC register update as the specification words it (spec §4.1):
"8 rounds of: if top bit set, shift-left-XOR-0x1021, else shift-left;
mask to 16 bits after each round".  This is the claimed behaviour; it is
compared against the source-derived `crc16_ccitt` below. -/
def crcRoundsSpec : Nat → Nat → Nat
  | 0, crc => crc
  | n + 1, crc =>
      crcRoundsSpec n
        ((if crc &&& 0x8000 ≠ 0 then (crc <<< 1) ^^^ 0x1021 else crc <<< 1) &&& 0xFFFF)

/-- Spec §4.1 `crc16`: initial value 0xFFFF, XOR each byte into the top
byte, 8 rounds masked after each round, no final XOR. -/
def crc16_spec (data : List Nat) : Nat :=
  data.foldl (fun crc b => crcRoundsSpec 8 (crc ^^^ (b <<< 8))) 0xFFFF

/-! ## The subset/CRC/sum pipeline helper (`subset_crc_sum_generator_v2`) -/

/-- Result record of `subset_crc_sum_generator_v2` in `SCC.py`.  The
`crc_raw_hex` entry (a hexadecimal string rendering of `crc_raw`) is not
modelled; all other returned entries are. -/
structure SubsetResult where
  subset : List Nat
  ascii : String
  crc_raw : Nat
  sum : Nat
deriving Repr, DecidableEq

/-- `subset_crc_sum_generator_v2` from `SCC.py`, on the subset (list) input
branch: `ascii_joined = ':'.join(chr(x) for x in subset)`,
`crc_raw = crc16_ccitt(bytes(subset))`, `sum_pair = sum(subset)`.
The string-typed input branch merely converts a colon-separated string to a
list of code points before reaching this computation.  Note the `sum` field
is the raw sum of the subset values, with no reduction. -/
def subset_crc_sum_generator_v2 (subset : List Nat) : SubsetResult :=
  { subset := subset
    ascii := String.intercalate ":" (subset.map fun x => String.singleton (Char.ofNat x))
    crc_raw := crc16_ccitt subset
    sum := subset.sum }

/-! ## The `CRCCompressor` dictionary-substitution scheme

`CRCCompressor.__init__` stores `chunk_size`; we pass it explicitly.  The
`pattern_dict`/`reverse_dict` instance fields are written but never read by
`compress_data`/`decompress_data`, so they are not modelled. -/

/-- Big-endian 16-bit encoding, modelling `struct.pack('>H', x)`.  The
source's `pack` raises `struct.error` for `x ≥ 2^16`; every reachable call
site in the claims below passes a value below `2^16`, where this encoding
is exact. -/
def be16 (x : Nat) : List Nat := [x / 256 % 256, x % 256]

/-- Big-endian 16-bit read at index `i`, modelling
`struct.unpack('>H', d[i:i+2])[0]`.  Callers guard `i + 2 ≤ d.length`
(the source raises `struct.error` otherwise), so the `getD 0` defaults
never fire at guarded call sites. -/
def be16At (d : List Nat) (i : Nat) : Nat :=
  (d[i]?.getD 0) * 256 + (d[i + 1]?.getD 0)

/-- The chunk start offsets scanned by `_find_patterns`:
`range(0, len(data) - self.chunk_size + 1, self.chunk_size)`.
In Python the stop value `len - cs + 1` is computed over ℤ, so the range is
empty whenever `len < cs`; otherwise it has `(len - cs) / cs + 1` elements
spaced `cs` apart. -/
def chunkStarts (cs L : Nat) : List Nat :=
  if L < cs then [] else (List.range ((L - cs) / cs + 1)).map (· * cs)

/-- The aligned chunks `data[i:i+cs]` examined by `_find_patterns`. -/
def chunksOf (cs : Nat) (data : List Nat) : List (List Nat) :=
  (chunkStarts cs data.length).map fun i => (data.drop i).take cs

/-- `CRCCompressor._find_patterns`: walk the aligned chunks, count
occurrences of each distinct chunk value (a Python dict keyed by the chunk
bytes, in first-insertion order), and keep, as `(chunk, crc, sum)` triples,
those chunk values occurring at least twice.  `crc` and `sum` are
`crc16_ccitt(chunk)` and `sum(chunk)` — the sum is stored unreduced. -/
def find_patterns (cs : Nat) (data : List Nat) : List (List Nat × Nat × Nat) :=
  let chunks := chunksOf cs data
  let uniq := chunks.foldl (fun acc c => if c ∈ acc then acc else acc ++ [c]) []
  (uniq.filter fun c => 2 ≤ chunks.count c).map fun c => (c, crc16_ccitt c, c.sum)

/-- `CRCCompressor._encode_pattern`: marker `b'\xFF\xFE'` followed by
`struct.pack('>HHB', crc, sum_val & 0xFFFF, len(pattern))`.  The length
byte models `pack('B', ·)`, which raises for lengths ≥ 256; all reachable
patterns in the claims below are shorter. -/
def encode_pattern (pattern : List Nat) (crc : Nat) (sum_val : Nat) : List Nat :=
  [0xFF, 0xFE] ++ be16 crc ++ be16 (sum_val &&& 0xFFFF) ++ [pattern.length]

/-- Scanning core of `bytes.find`: try successive start offsets.  The
countdown `n` is initialised to the number of offsets left to try, so it
never runs out before the bounds check fails. -/
def findIdxAux (l pat : List Nat) : Nat → Nat → Option Nat
  | 0, _ => none
  | n + 1, pos =>
      if l.length < pos + pat.length then none
      else if (l.drop pos).take pat.length == pat then some pos
      else findIdxAux l pat n (pos + 1)

/-- `bytes.find(pat, pos)` of Python: the least index `idx ≥ pos` with a
full occurrence of `pat` at `idx`, if any (`-1` becomes `none`). -/
def findIdx (l pat : List Nat) (pos : Nat) : Option Nat :=
  findIdxAux l pat (l.length + 1 - pos) pos

/-- The replace-all loop shared by `compress_data` and `decompress_data`:
`pos = 0; while pos < len(cur): idx = cur.find(searched, pos);`
`if idx == -1: break; cur[idx:idx+len(searched)] = repl; pos = idx + len(repl)`.
The bare `try/except: break` wrapping this loop in the source is dead code:
`find` and slice assignment are total.  The loop is fuelled; every call
below supplies `cur.length + 1` fuel, which is exhausted only when
`searched = []`, a case in which the Python loop never terminates and which
is unreachable from the compressor (patterns have length `chunk_size ≥ 1`). -/
def replLoop : Nat → List Nat → List Nat → List Nat → Nat → List Nat
  | 0, _, _, cur, _ => cur
  | fuel + 1, searched, repl, cur, pos =>
      if pos < cur.length then
        match findIdx cur searched pos with
        | none => cur
        | some idx =>
            replLoop fuel searched repl
              (cur.take idx ++ repl ++ cur.drop (idx + searched.length))
              (idx + repl.length)
      else cur

/-- Stable insertion of `x` after every element of at least its length:
together with `sortByLenDesc` this models Python's stable
`sorted(keys, key=len, reverse=True)` — longest first, original order
preserved among equal lengths. -/
def insertByLenDesc (x : List Nat) : List (List Nat) → List (List Nat)
  | [] => [x]
  | y :: ys => if x.length ≤ y.length then y :: insertByLenDesc x ys else x :: y :: ys

/-- Python's stable sort by length, descending (see `insertByLenDesc`). -/
def sortByLenDesc (l : List (List Nat)) : List (List Nat) :=
  l.foldl (fun acc x => insertByLenDesc x acc) []

/-- `CRCCompressor.compress_data`. Returns the input unchanged when it is
shorter than `2 * chunk_size` or no repeating aligned chunk exists;
otherwise replaces every occurrence of each repeating pattern by its
7-byte encoding (longest pattern first — Python's stable `sorted` by
length descending) and prepends the `0xC8C1` header and the
encoded/original pattern dictionary. -/
def compress_data (cs : Nat) (data : List Nat) : List Nat :=
  if data.length < cs * 2 then data
  else
    let patterns := find_patterns cs data
    if patterns.isEmpty then data
    else
      let cdict : List (List Nat × List Nat) :=
        patterns.map fun p => (p.1, encode_pattern p.1 p.2.1 p.2.2)
      let sorted := sortByLenDesc (cdict.map (·.1))
      let compressed := sorted.foldl
        (fun cur pat =>
          let enc := (((cdict.find? fun q => q.1 == pat).map (·.2)).getD [])
          replLoop (cur.length + 1) pat enc cur 0)
        data
      let header := [0xC8, 0xC1] ++ be16 patterns.length ++ be16 cs
      let dict_data :=
        (cdict.map fun q => be16 q.2.length ++ q.2 ++ be16 q.1.length ++ q.1).flatten
      header ++ dict_data ++ compressed

/-- Insertion into the decoder's rebuilt `compression_dict`: a Python dict
assignment `dict[encoded] = pattern` keeps the first-insertion position of
an existing key while overwriting its value. -/
def dictInsert (k v : List Nat) (dict : List (List Nat × List Nat)) :
    List (List Nat × List Nat) :=
  if dict.any fun q => q.1 == k then
    dict.map fun q => if q.1 == k then (k, v) else q
  else dict ++ [(k, v)]

/-- The dictionary-reading loop of `decompress_data`: `pattern_count`
iterations of two `unpack('>H', ·)` length reads, each followed by a slice.
`unpack` demands exactly two bytes, so a truncated read raises
`struct.error`, modelled as `Except.error ()`.  Python slices clamp, which
`take`/`drop` mirror. -/
def readDict (d : List Nat) : Nat → Nat → List (List Nat × List Nat) →
    Except Unit (List (List Nat × List Nat) × Nat)
  | 0, offset, acc => .ok (acc, offset)
  | n + 1, offset, acc =>
      if d.length < offset + 2 then .error ()
      else
        let elen := be16At d offset
        let enc := (d.drop (offset + 2)).take elen
        let o2 := offset + 2 + elen
        if d.length < o2 + 2 then .error ()
        else
          let plen := be16At d o2
          let pat := (d.drop (o2 + 2)).take plen
          readDict d n (o2 + 2 + plen) (dictInsert enc pat acc)

/-- `CRCCompressor.decompress_data`.  Inputs shorter than 6 bytes, or whose
first two bytes are not the big-endian magic `0xC8C1`, are returned
unchanged.  Otherwise the pattern dictionary is re-read (the third header
field, `chunk_size`, is unpacked but never used by the source) and each
encoded pattern is replaced back by its original bytes.  `Except.error`
models a raised `struct.error`. -/
def decompress_data (d : List Nat) : Except Unit (List Nat) :=
  if d.length < 6 then .ok d
  else
    let magic := be16At d 0
    let pattern_count := be16At d 2
    if magic ≠ 0xC8C1 then .ok d
    else
      match readDict d pattern_count 6 [] with
      | .error e => .error e
      | .ok (dict, offset) =>
          .ok (dict.foldl
            (fun cur q => replLoop (cur.length + 1) q.1 q.2 cur 0)
            (d.drop offset))

/-! ## The Digest Stream codec (spec §4.2, §6)

The Block Digest Codec, the search engines and the reconstruction driver
described by the specification as the system's core are not present in the
`src/` sources (only the digest functions and the separate dictionary
substitution scheme are).  They are modelled here from the specification's
words. -/

/-- Modelled from the spec: a Digest Record `{crc16: uint16, sum16: uint16}`
(§3), the CRC-16-CCITT and truncated arithmetic sum of a block. -/
structure DigestRecord where
  crc16 : Nat
  sum16 : Nat
deriving Repr, DecidableEq

/-- Modelled from the spec: `sum16(block)` — sum of byte values modulo
65536 (§4.1). -/
def sum16 (block : List Nat) : Nat := block.sum % 65536

/-- Modelled from the spec: the digest of a block, the pair
`(crc16(block), sum16(block))` (§3, §4.2). -/
def digest (block : List Nat) : DigestRecord :=
  ⟨crc16_ccitt block, sum16 block⟩

/-- Modelled from the spec: a Digest Stream `{block_size, records}` (§3). -/
structure DigestStream where
  block_size : Nat
  records : List DigestRecord
deriving Repr, DecidableEq

/-- Modelled from the spec: the error taxonomy of §7 relevant to the
codec and the search engines. -/
inductive CodecError where
  | formatError
  | noCandidateFound
deriving Repr, DecidableEq

/-- Modelled from the spec: `serialize(DigestStream) -> bytes` — one header
byte for `N`, then fixed 4-byte big-endian records, `crc16` then `sum16`,
back to back (§4.2, §6). -/
def serialize (s : DigestStream) : List Nat :=
  s.block_size :: (s.records.map fun r => be16 r.crc16 ++ be16 r.sum16).flatten

/-- Big-endian parse of a flat record region whose length is a multiple
of 4 (helper for `deserialize`). -/
def parseRecords : List Nat → List DigestRecord
  | b0 :: b1 :: b2 :: b3 :: rest =>
      ⟨b0 * 256 + b1, b2 * 256 + b3⟩ :: parseRecords rest
  | _ => []

/-- Modelled from the spec: `deserialize(bytes) -> DigestStream` — fails
with `FormatError` if the byte length after the header is not a multiple
of 4, or if `N` is zero or exceeds the configured engine's maximum
supported block size (§4.2).  `maxN` is that engine maximum (4 for the
parallel engine, §3). -/
def deserialize (maxN : Nat) : List Nat → Except CodecError DigestStream
  | [] => .error .formatError
  | n :: rest =>
      if n = 0 ∨ maxN < n then .error .formatError
      else if rest.length % 4 ≠ 0 then .error .formatError
      else .ok ⟨n, parseRecords rest⟩

/-! ## The Bounded Search Engine (spec §4.3) -/

/-- Modelled from the spec: the lexicographic enumeration of `alphabet^N`
with the most significant position varying slowest (§4.3): position 0 is
chosen from the alphabet outermost, each choice prefixed onto every
enumeration of the remaining `N - 1` positions. -/
def candidates (alphabet : List Nat) : Nat → List (List Nat)
  | 0 => [[]]
  | n + 1 => (alphabet.map fun a => (candidates alphabet n).map (a :: ·)).flatten

/-- Modelled from the spec: `search(target, N, alphabet) -> Block` —
enumerate `alphabet^N` in lexicographic order and return the first
candidate whose `crc16` and `sum16` both match the target; fail with
`NoCandidateFound` when the space is exhausted without a match (§4.3). -/
def search (target : DigestRecord) (N : Nat) (alphabet : List Nat) :
    Except CodecError (List Nat) :=
  match (candidates alphabet N).find? fun c => digest c == target with
  | some b => .ok b
  | none => .error .noCandidateFound

/-! ## The Exhaustive Parallel Search Engine (spec §4.4, §5) -/

/-- Modelled from the spec: a candidate's bytes are its index `gid`'s
big-endian base-256 digits over `N` positions (§4.4). -/
def beDigits : Nat → Nat → List Nat
  | 0, _ => []
  | n + 1, gid => beDigits n (gid / 256) ++ [gid % 256]

/-- Modelled from the spec: the set of worker indices `gid ∈ [0, 256^N)`
whose decoded candidate matches the target digest (§4.4).  Each such
worker performs one atomic-minimum write into the block's result cell. -/
def matchingGids (target : DigestRecord) (N : Nat) : List Nat :=
  (List.range (256 ^ N)).filter fun gid => digest (beDigits N gid) == target

/-- Modelled from the spec: the per-block shared "best index" cell,
initialized to the sentinel `256^N` and reduced by atomic minimum over the
matching workers' writes, in whatever order they complete (§4.4, §5).  The
completion order is the argument list. -/
def engineCell (N : Nat) (writes : List Nat) : Nat :=
  writes.foldl min (256 ^ N)

/-- Modelled from the spec: the engine's per-block outcome — if the cell
still holds the sentinel no candidate matched (`NoCandidateFound`),
otherwise the winning `gid` is decoded back into `N` big-endian bytes
(§4.4). -/
def engineResult (N : Nat) (writes : List Nat) : Option (List Nat) :=
  if engineCell N writes = 256 ^ N then none else some (beDigits N (engineCell N writes))

/-- Modelled from the spec: trailing zero-byte stripping applied by the
reconstruction driver (§4.5). -/
def rstripZeros (l : List Nat) : List Nat :=
  (l.reverse.dropWhile fun b => b == 0).reverse

/-- Modelled from the spec: per-record engine invocation and fail-fast
concatenation of the reconstruction driver (§4.5); `writes` gives, per
block, the completion order of that block's matching workers. -/
def reconstructBlocks (N : Nat) : List (List Nat) → Option (List Nat)
  | [] => some []
  | w :: rest =>
      match engineResult N w, reconstructBlocks N rest with
      | some b, some p => some (b ++ p)
      | _, _ => none

/-- Modelled from the spec: the recovered payload — concatenation of all
winning candidates in stream order with trailing zero bytes stripped
(§3, §4.5). -/
def reconstruct (N : Nat) (writes : List (List Nat)) : Option (List Nat) :=
  (reconstructBlocks N writes).map rstripZeros

/-! ## Claim C1: the CRC digest function -/

/-! Bit-level helper lemmas relating the per-round masking of the spec
wording with the per-byte masking of the source. -/

theorem mask_and_top_bit (x : Nat) : (x &&& 0xFFFF) &&& 0x8000 = x &&& 0x8000 := by
  have h : (65535 : Nat) &&& 32768 = 32768 := by decide
  rw [Nat.and_assoc, h]

theorem mask_shift_xor (x t : Nat) :
    (((x &&& 0xFFFF) <<< 1) ^^^ t) &&& 0xFFFF = ((x <<< 1) ^^^ t) &&& 0xFFFF := by
  apply Nat.eq_of_testBit_eq
  intro i
  have h16 : (0xFFFF : Nat) = 2 ^ 16 - 1 := by norm_num
  simp only [Nat.testBit_and, Nat.testBit_xor, Nat.testBit_shiftLeft, h16,
    Nat.testBit_two_pow_sub_one]
  by_cases hi : i < 16
  · have : i - 1 < 16 := by omega
    simp [hi, this]
  · simp [hi]

theorem mask_shift (x : Nat) :
    ((x &&& 0xFFFF) <<< 1) &&& 0xFFFF = (x <<< 1) &&& 0xFFFF := by
  have h := mask_shift_xor x 0
  simpa using h

/-- The spec's masked round applied to a masked register agrees with the
source's unmasked round followed by a mask. -/
theorem crcRoundSpec_step (x : Nat) :
    (if (x &&& 0xFFFF) &&& 0x8000 ≠ 0 then ((x &&& 0xFFFF) <<< 1) ^^^ 0x1021
     else (x &&& 0xFFFF) <<< 1) &&& 0xFFFF = crcRound x &&& 0xFFFF := by
  unfold crcRound
  rw [mask_and_top_bit]
  by_cases h : x &&& 0x8000 ≠ 0
  · simp only [if_pos h]
    exact mask_shift_xor x 0x1021
  · simp only [if_neg h]
    exact mask_shift x

theorem crcRoundsSpec_mask (n : Nat) : ∀ x : Nat,
    crcRoundsSpec n (x &&& 0xFFFF) = crcRounds n x &&& 0xFFFF := by
  induction n with
  | zero => intro x; rfl
  | succ n ih =>
      intro x
      show crcRoundsSpec n _ = crcRounds n (crcRound x) &&& 0xFFFF
      rw [crcRoundSpec_step x, ← ih (crcRound x)]

theorem crcRoundsSpec_absorb (n : Nat) (x : Nat) :
    crcRoundsSpec (n + 1) x = crcRounds (n + 1) x &&& 0xFFFF := by
  show crcRoundsSpec n (crcRound x &&& 0xFFFF) = crcRounds n (crcRound x) &&& 0xFFFF
  exact crcRoundsSpec_mask n (crcRound x)

theorem crc16_ccitt_eq_spec (data : List Nat) :
    crc16_ccitt data = crc16_spec data := by
  unfold crc16_ccitt crc16_spec
  suffices h : ∀ init : Nat,
      data.foldl (fun crc b => crcRounds 8 (crc ^^^ (b <<< 8)) &&& 0xFFFF) init =
      data.foldl (fun crc b => crcRoundsSpec 8 (crc ^^^ (b <<< 8))) init from h 0xFFFF
  intro init
  induction data generalizing init with
  | nil => rfl
  | cons b rest ih =>
      simp only [List.foldl_cons]
      rw [show crcRoundsSpec 8 (init ^^^ (b <<< 8)) =
            crcRounds 8 (init ^^^ (b <<< 8)) &&& 0xFFFF from crcRoundsSpec_absorb 7 _]
      exact ih _

theorem crc16_ccitt_le (data : List Nat) : crc16_ccitt data ≤ 65535 := by
  unfold crc16_ccitt
  suffices h : ∀ init : Nat, init ≤ 65535 →
      data.foldl (fun crc b => crcRounds 8 (crc ^^^ (b <<< 8)) &&& 0xFFFF) init ≤ 65535 from
    h 0xFFFF (by norm_num)
  intro init hinit
  induction data generalizing init with
  | nil => exact hinit
  | cons b rest ih =>
      simp only [List.foldl_cons]
      exact ih _ (Nat.and_le_right)

/-- Sanity check of the embedding against the published CRC-16/CCITT-FALSE
check value: the ASCII bytes of "123456789" digest to 0x29B1. -/
theorem crc16_check_value :
    crc16_ccitt [0x31, 0x32, 0x33, 0x34, 0x35, 0x36, 0x37, 0x38, 0x39] = 0x29B1 := by
  decide

/-- C1: for every byte sequence, `crc16_ccitt` computes the CRC-16-CCITT
checksum exactly as the specification describes it (initial register 0xFFFF,
byte XORed into the top byte, 8 shift rounds with polynomial 0x1021, 16-bit
masking, no final XOR), and the result always lies in `[0, 65536)`. -/
theorem claim_C1_crc16_correct (data : List Nat) :
    crc16_ccitt data = crc16_spec data ∧ crc16_ccitt data < 65536 := by
  refine ⟨crc16_ccitt_eq_spec data, ?_⟩
  have h := crc16_ccitt_le data
  omega

/-! ## Claim C2: the sum digest and modular reduction -/

theorem and_mask_eq_mod (x : Nat) : x &&& 65535 = x % 65536 := by
  apply Nat.eq_of_testBit_eq
  intro i
  have h1 : (65535 : Nat) = 2 ^ 16 - 1 := by norm_num
  have h2 : (65536 : Nat) = 2 ^ 16 := by norm_num
  rw [h1, h2, Nat.testBit_and, Nat.testBit_two_pow_sub_one, Nat.testBit_mod_two_pow,
    Bool.and_comm]

/-- C2 counterexample: the `sum` entry returned by
`subset_crc_sum_generator_v2` for 258 bytes of value 255 is the raw sum
65790, not a value reduced modulo 65536 — so the program's sum digest is
not reduced (and does not fit a uint16) everywhere it is computed. -/
theorem claim_C2_counterexample :
    (subset_crc_sum_generator_v2 (List.replicate 258 255)).sum ≠
      (List.replicate 258 255).sum % 65536 := by
  decide

/-- C2 (amended): the sum digest is the raw, unreduced byte sum where
`subset_crc_sum_generator_v2` and `_find_patterns` compute and store it;
only `_encode_pattern` reduces it modulo 65536 when packing, so the
serialized 16-bit sum field equals the sum modulo 65536. -/
theorem claim_C2_sum_digest (subset : List Nat) (cs : Nat) (data : List Nat) :
    (subset_crc_sum_generator_v2 subset).sum = subset.sum
    ∧ (∀ p ∈ find_patterns cs data, p.2.2 = p.1.sum)
    ∧ (∀ (pattern : List Nat) (crc s : Nat),
        (encode_pattern pattern crc s)[4]?.getD 0 * 256 +
          (encode_pattern pattern crc s)[5]?.getD 0 = s % 65536) := by
  refine ⟨rfl, ?_, ?_⟩
  · intro p hp
    simp only [find_patterns, List.mem_map] at hp
    obtain ⟨c, -, rfl⟩ := hp
    rfl
  · intro pattern crc s
    simp only [encode_pattern, be16, and_mask_eq_mod]
    simp only [List.cons_append, List.nil_append, List.getElem?_cons_succ,
      List.getElem?_cons_zero, Option.getD_some]
    omega

theorem claim_C2_sum_digest_witness :
    (subset_crc_sum_generator_v2 [3, 4]).sum = [3, 4].sum :=
  (claim_C2_sum_digest [3, 4] 1 []).1

/-! ## Claim C9: the compressor is the identity on incompressible input -/

theorem mem_foldl_uniq {l : List (List Nat)} :
    ∀ {acc : List (List Nat)} {x : List Nat},
      x ∈ l.foldl (fun acc c => if c ∈ acc then acc else acc ++ [c]) acc →
      x ∈ acc ∨ x ∈ l := by
  induction l with
  | nil => intro acc x hx; exact Or.inl hx
  | cons hd tl ih =>
      intro acc x hx
      rcases ih hx with h | h
      · replace h : x ∈ if hd ∈ acc then acc else acc ++ [hd] := h
        by_cases hmem : hd ∈ acc
        · rw [if_pos hmem] at h; exact Or.inl h
        · rw [if_neg hmem] at h
          rcases List.mem_append.mp h with h1 | h1
          · exact Or.inl h1
          · simp only [List.mem_singleton] at h1
            exact Or.inr (h1 ▸ List.mem_cons_self hd tl)
      · exact Or.inr (List.mem_cons_of_mem hd h)

theorem find_patterns_eq_nil {cs : Nat} {data : List Nat}
    (h : ∀ c ∈ chunksOf cs data, (chunksOf cs data).count c < 2) :
    find_patterns cs data = [] := by
  unfold find_patterns
  rw [List.map_eq_nil_iff, List.filter_eq_nil_iff]
  intro c hc
  rcases mem_foldl_uniq hc with h1 | h1
  · simp at h1
  · have := h c h1
    simp only [decide_eq_true_eq]
    omega

/-- C9: for every byte string shorter than twice the chunk size, and for
every byte string in which no aligned chunk of length `chunk_size` occurs
at least twice, `compress_data` returns the input itself unchanged. -/
theorem claim_C9_identity_on_incompressible (cs : Nat) (data : List Nat)
    (_hcs : 0 < cs)
    (h : data.length < 2 * cs ∨
      ∀ c ∈ chunksOf cs data, (chunksOf cs data).count c < 2) :
    compress_data cs data = data := by
  unfold compress_data
  by_cases hlen : data.length < cs * 2
  · rw [if_pos hlen]
  · rw [if_neg hlen]
    rcases h with h1 | h2
    · omega
    · rw [find_patterns_eq_nil h2]
      rfl

theorem claim_C9_witness :
    0 < 8 ∧ compress_data 8 [1, 2, 3] = [1, 2, 3] :=
  ⟨by decide, claim_C9_identity_on_incompressible 8 [1, 2, 3] (by decide)
    (Or.inl (by decide))⟩

/-! ## Claim C10: unrecognized input passes through the decompressor -/

/-- C10: every input shorter than 6 bytes, or whose first two bytes do not
decode as the big-endian magic `0xC8C1`, is returned unchanged by
`decompress_data`, with no error raised. -/
theorem claim_C10_passthrough (d : List Nat)
    (h : d.length < 6 ∨ be16At d 0 ≠ 0xC8C1) :
    decompress_data d = .ok d := by
  unfold decompress_data
  by_cases h6 : d.length < 6
  · rw [if_pos h6]
  · rw [if_neg h6]
    rcases h with h1 | h2
    · exact absurd h1 h6
    · simp only [if_pos h2]

theorem claim_C10_witness :
    decompress_data [1, 2, 3] = .ok [1, 2, 3] ∧
    decompress_data [0, 0, 0, 0, 0, 0, 9] = .ok [0, 0, 0, 0, 0, 0, 9] :=
  ⟨claim_C10_passthrough [1, 2, 3] (Or.inl (by decide)),
   claim_C10_passthrough [0, 0, 0, 0, 0, 0, 9] (Or.inr (by decide))⟩

/-! ## Claim C3: round-trips -/

/-- C3 counterexample: `decompress_data (compress_data data) ≠ data` for
the 23-byte input consisting of sixteen zero bytes followed by the very
7-byte sequence `_encode_pattern` produces for an 8-byte zero chunk
(chunk size 8).  Compression rewrites the trailing 7 bytes' worth of
context into the same marker form, and decompression expands all three
markers, yielding 24 zero bytes. -/
theorem claim_C3_counterexample :
    decompress_data (compress_data 8 (List.replicate 16 0 ++
        encode_pattern (List.replicate 8 0) (crc16_ccitt (List.replicate 8 0)) 0)) =
      Except.ok (List.replicate 24 0)
    ∧ List.replicate 24 0 ≠ List.replicate 16 0 ++
        encode_pattern (List.replicate 8 0) (crc16_ccitt (List.replicate 8 0)) 0 := by
  exact ⟨by rfl, by decide⟩

/-! ## Claim C4: silent best-guess output -/

/-- C4 counterexample: on the 15-byte input consisting of eight `7` bytes
followed by the marker encoding of the chunk `[7,7,7,7]` (chunk size 4),
`decompress_data` after `compress_data` returns — without signalling any
error — twelve `7` bytes, which is not a reconstruction of the input: the
operation silently produced a best-guess payload. -/
theorem claim_C4_counterexample :
    decompress_data (compress_data 4 (List.replicate 8 7 ++
        encode_pattern (List.replicate 4 7) (crc16_ccitt (List.replicate 4 7)) 28)) =
      Except.ok (List.replicate 12 7)
    ∧ List.replicate 12 7 ≠ List.replicate 8 7 ++
        encode_pattern (List.replicate 4 7) (crc16_ccitt (List.replicate 4 7)) 28 := by
  exact ⟨by rfl, by decide⟩

/-- C4 (amended): the compressor's operations do not guarantee that a
produced payload is a fully-matched reconstruction: there is an input for
which decompressing the compressed form succeeds (no error of any kind is
reported) yet yields a different payload.  (The bare `except` handlers in
the source's replacement loops are unreachable, since `find` and slice
assignment are total; the unverified output itself is the silent
best-guess.) -/
theorem claim_C4_best_guess_possible :
    ∃ (data out : List Nat),
      decompress_data (compress_data 4 data) = Except.ok out ∧ out ≠ data := by
  refine ⟨List.replicate 8 7 ++
      encode_pattern (List.replicate 4 7) (crc16_ccitt (List.replicate 4 7)) 28,
    List.replicate 12 7, by rfl, by decide⟩

/-! ## Claim C5: deserialization of malformed streams -/

/-- C5: the Digest Stream deserializer (modelled from the spec, §4.2) fails
with `FormatError` on every input whose byte length after the header is
not a multiple of 4, or whose declared block size is zero or exceeds the
engine's maximum. -/
theorem claim_C5_deserialize_malformed (maxN n : Nat) (rest : List Nat)
    (h : rest.length % 4 ≠ 0 ∨ n = 0 ∨ maxN < n) :
    deserialize maxN (n :: rest) = .error CodecError.formatError := by
  have hdef : deserialize maxN (n :: rest) =
      if n = 0 ∨ maxN < n then .error CodecError.formatError
      else if rest.length % 4 ≠ 0 then .error CodecError.formatError
      else .ok ⟨n, parseRecords rest⟩ := rfl
  rw [hdef]
  by_cases h1 : n = 0 ∨ maxN < n
  · rw [if_pos h1]
  · rw [if_neg h1]
    rcases h with h2 | h2 | h2
    · rw [if_pos h2]
    · exact absurd (Or.inl h2) h1
    · exact absurd (Or.inr h2) h1

theorem claim_C5_deserialize_malformed_witness :
    deserialize 4 [2, 5] = .error CodecError.formatError ∧
    deserialize 4 [0] = .error CodecError.formatError ∧
    deserialize 4 [5, 1, 2, 3, 4] = .error CodecError.formatError :=
  ⟨claim_C5_deserialize_malformed 4 2 [5] (Or.inl (by decide)),
   claim_C5_deserialize_malformed 4 0 [] (Or.inr (Or.inl rfl)),
   claim_C5_deserialize_malformed 4 5 [1, 2, 3, 4] (Or.inr (Or.inr (by decide)))⟩

/-! ## Claim C6: the chunking of the payload -/

/-- C6 counterexample: for the 9-byte payload `[0..8]` with block size 8,
the source's chunking (`_find_patterns`) examines a single aligned chunk —
not `ceil(9/8) = 2` — produces no digest records at all, and drops the
trailing byte `8`, which is covered by no chunk; nothing is zero-padded. -/
theorem claim_C6_counterexample :
    (chunksOf 8 [0, 1, 2, 3, 4, 5, 6, 7, 8]).length = 1
    ∧ (9 + 8 - 1) / 8 = 2
    ∧ (chunksOf 8 [0, 1, 2, 3, 4, 5, 6, 7, 8]).length ≠ (9 + 8 - 1) / 8
    ∧ find_patterns 8 [0, 1, 2, 3, 4, 5, 6, 7, 8] = []
    ∧ (chunksOf 8 [0, 1, 2, 3, 4, 5, 6, 7, 8]).flatten = [0, 1, 2, 3, 4, 5, 6, 7] := by
  decide

theorem chunkStarts_mem {cs L i : Nat} (_hcs : 0 < cs) (hi : i ∈ chunkStarts cs L) :
    i + cs ≤ L := by
  unfold chunkStarts at hi
  by_cases h : L < cs
  · rw [if_pos h] at hi; simp at hi
  · rw [if_neg h] at hi
    obtain ⟨k, hk, rfl⟩ := List.mem_map.mp hi
    rw [List.mem_range] at hk
    have hk1 : k ≤ (L - cs) / cs := by omega
    have h2 : k * cs ≤ (L - cs) / cs * cs := Nat.mul_le_mul_right cs hk1
    have h3 : (L - cs) / cs * cs ≤ L - cs := Nat.div_mul_le_self _ _
    omega

theorem chunksOf_length {cs : Nat} (data : List Nat) (hcs : 0 < cs) :
    (chunksOf cs data).length = data.length / cs := by
  unfold chunksOf chunkStarts
  by_cases h : data.length < cs
  · rw [if_pos h]
    simp [Nat.div_eq_of_lt h]
  · rw [if_neg h]
    simp only [List.length_map, List.length_range]
    have hL : data.length - cs + cs = data.length := by omega
    calc (data.length - cs) / cs + 1 = (data.length - cs + cs) / cs :=
          (Nat.add_div_right _ hcs).symm
      _ = data.length / cs := by rw [hL]

theorem flatten_range_chunks (data : List Nat) (cs : Nat) : ∀ n : Nat,
    ((((List.range n).map (· * cs)).map fun i => (data.drop i).take cs).flatten =
      data.take (n * cs)) := by
  intro n
  induction n with
  | zero => simp
  | succ n ih =>
      rw [List.range_succ, List.map_append, List.map_append, List.flatten_append]
      simp only [List.map_cons, List.map_nil, List.flatten_cons, List.flatten_nil,
        List.append_nil]
      rw [ih, Nat.succ_mul, List.take_add]

/-- C6 (amended): for block size `N ≥ 1` the chunking of `_find_patterns`
examines exactly `floor(len(data)/N)` consecutive aligned chunks, each of
length `N`; their concatenation is the prefix of `data` of that total
length — the trailing `len mod N` bytes are dropped, never zero-padded —
and a digest triple is kept only for chunk values occurring at least
twice. -/
theorem claim_C6_chunking (cs : Nat) (data : List Nat) (hcs : 0 < cs) :
    (chunksOf cs data).length = data.length / cs
    ∧ (∀ c ∈ chunksOf cs data, c.length = cs)
    ∧ (chunksOf cs data).flatten = data.take (data.length / cs * cs)
    ∧ (∀ p ∈ find_patterns cs data, 2 ≤ (chunksOf cs data).count p.1) := by
  refine ⟨chunksOf_length data hcs, ?_, ?_, ?_⟩
  · intro c hc
    obtain ⟨i, hi, rfl⟩ := List.mem_map.mp hc
    have hb := chunkStarts_mem hcs hi
    simp only [List.length_take, List.length_drop]
    omega
  · unfold chunksOf chunkStarts
    by_cases h : data.length < cs
    · rw [if_pos h]
      simp [Nat.div_eq_of_lt h]
    · rw [if_neg h]
      have hlen : (data.length - cs) / cs + 1 = data.length / cs := by
        have hL : data.length - cs + cs = data.length := by omega
        calc (data.length - cs) / cs + 1 = (data.length - cs + cs) / cs :=
              (Nat.add_div_right _ hcs).symm
          _ = data.length / cs := by rw [hL]
      rw [hlen]
      exact flatten_range_chunks data cs _
  · intro p hp
    simp only [find_patterns, List.mem_map] at hp
    obtain ⟨c, hc, rfl⟩ := hp
    have := (List.mem_filter.mp hc).2
    simpa using this

/-! ## Claim C3 (amended part): Digest Stream serialization round-trips -/

theorem recordBytes_length (recs : List DigestRecord) :
    ((recs.map fun r => be16 r.crc16 ++ be16 r.sum16).flatten).length = 4 * recs.length := by
  induction recs with
  | nil => rfl
  | cons r rest ih =>
      have hb : (be16 r.crc16 ++ be16 r.sum16).length = 4 := rfl
      rw [List.map_cons, List.flatten_cons, List.length_append, ih, hb, List.length_cons]
      omega

theorem parseRecords_roundtrip (recs : List DigestRecord)
    (h : ∀ r ∈ recs, r.crc16 < 65536 ∧ r.sum16 < 65536) :
    parseRecords ((recs.map fun r => be16 r.crc16 ++ be16 r.sum16).flatten) = recs := by
  induction recs with
  | nil => rfl
  | cons r rest ih =>
      obtain ⟨h1, h2⟩ := h r (List.mem_cons_self r rest)
      have hrest : ∀ x ∈ rest, x.crc16 < 65536 ∧ x.sum16 < 65536 :=
        fun x hx => h x (List.mem_cons_of_mem r hx)
      obtain ⟨rc, rs⟩ := r
      simp only at h1 h2
      rw [List.map_cons, List.flatten_cons]
      have hstep : parseRecords ((be16 rc ++ be16 rs) ++
            ((rest.map fun r => be16 r.crc16 ++ be16 r.sum16).flatten)) =
          (⟨rc / 256 % 256 * 256 + rc % 256, rs / 256 % 256 * 256 + rs % 256⟩ :
            DigestRecord) ::
            parseRecords ((rest.map fun r => be16 r.crc16 ++ be16 r.sum16).flatten) := rfl
      rw [hstep, ih hrest]
      have e1 : rc / 256 % 256 * 256 + rc % 256 = rc := by omega
      have e2 : rs / 256 % 256 * 256 + rs % 256 = rs := by omega
      rw [e1, e2]

/-- C3 (amended): the Digest Stream codec (modelled from the spec, §4.2/§6)
round-trips exactly — `deserialize (serialize s) = s` for every valid
stream `s` (block size between 1 and the engine maximum, record fields
below 2^16).  The repository's `decompress_data ∘ compress_data`, by
contrast, is not the identity on all inputs (see the counterexample). -/
theorem claim_C3_serialize_roundtrip (maxN : Nat) (s : DigestStream)
    (hN : 1 ≤ s.block_size) (hNmax : s.block_size ≤ maxN)
    (hrec : ∀ r ∈ s.records, r.crc16 < 65536 ∧ r.sum16 < 65536) :
    deserialize maxN (serialize s) = .ok s := by
  obtain ⟨n, recs⟩ := s
  simp only at hN hNmax hrec
  have hdef : deserialize maxN (serialize ⟨n, recs⟩) =
      if n = 0 ∨ maxN < n then .error CodecError.formatError
      else if ((recs.map fun r => be16 r.crc16 ++ be16 r.sum16).flatten).length % 4 ≠ 0
        then .error CodecError.formatError
      else .ok ⟨n, parseRecords ((recs.map fun r => be16 r.crc16 ++ be16 r.sum16).flatten)⟩ :=
    rfl
  rw [hdef]
  have hng : ¬(n = 0 ∨ maxN < n) := by omega
  rw [if_neg hng]
  have hmod : ((recs.map fun r => be16 r.crc16 ++ be16 r.sum16).flatten).length % 4 = 0 := by
    rw [recordBytes_length]; omega
  rw [if_neg (by omega : ¬((recs.map fun r => be16 r.crc16 ++ be16 r.sum16).flatten).length % 4 ≠ 0)]
  rw [parseRecords_roundtrip recs hrec]

theorem claim_C3_serialize_roundtrip_witness :
    deserialize 4 (serialize ⟨2, [⟨4660, 86⟩, ⟨65535, 65535⟩]⟩) =
      .ok ⟨2, [⟨4660, 86⟩, ⟨65535, 65535⟩]⟩ :=
  claim_C3_serialize_roundtrip 4 ⟨2, [⟨4660, 86⟩, ⟨65535, 65535⟩]⟩ (by decide)
    (by decide) (by decide)

theorem claim_C6_chunking_witness :
    (chunksOf 2 [1, 2, 3]).length = [1, 2, 3].length / 2
    ∧ (∀ c ∈ chunksOf 2 [1, 2, 3], c.length = 2)
    ∧ (chunksOf 2 [1, 2, 3]).flatten = [1, 2, 3].take ([1, 2, 3].length / 2 * 2)
    ∧ (∀ p ∈ find_patterns 2 [1, 2, 3], 2 ≤ (chunksOf 2 [1, 2, 3]).count p.1) :=
  claim_C6_chunking 2 [1, 2, 3] (by decide)

/-! ## Claim C7: the bounded search engine -/

theorem mem_candidates {alphabet : List Nat} : ∀ {N : Nat} {b : List Nat},
    b ∈ candidates alphabet N ↔ b.length = N ∧ ∀ x ∈ b, x ∈ alphabet := by
  intro N
  induction N with
  | zero =>
      intro b
      simp only [candidates, List.mem_singleton]
      constructor
      · rintro rfl; exact ⟨rfl, by simp⟩
      · rintro ⟨h, -⟩; exact List.length_eq_zero.mp h
  | succ n ih =>
      intro b
      simp only [candidates, List.mem_flatten, List.mem_map]
      constructor
      · rintro ⟨s, ⟨a, ha, rfl⟩, hb⟩
        obtain ⟨t, ht, rfl⟩ := List.mem_map.mp hb
        obtain ⟨htl, hta⟩ := ih.mp ht
        refine ⟨by simp [htl], ?_⟩
        intro x hx
        rcases List.mem_cons.mp hx with rfl | hx
        · exact ha
        · exact hta x hx
      · rintro ⟨hlen, hmem⟩
        cases b with
        | nil => simp at hlen
        | cons a t =>
            refine ⟨(candidates alphabet n).map (a :: ·),
              ⟨a, hmem a (List.mem_cons_self a t), rfl⟩, ?_⟩
            refine List.mem_map.mpr ⟨t, ih.mpr ⟨?_, ?_⟩, rfl⟩
            · simpa using hlen
            · exact fun x hx => hmem x (List.mem_cons_of_mem a hx)

theorem find?_eq_some_split {α : Type} (p : α → Bool) :
    ∀ (l : List α) (b : α), l.find? p = some b →
      p b = true ∧ ∃ pre post, l = pre ++ b :: post ∧ ∀ c ∈ pre, p c = false := by
  intro l
  induction l with
  | nil => intro b h; simp [List.find?] at h
  | cons a t ih =>
      intro b h
      by_cases hp : p a = true
      · rw [List.find?_cons_of_pos t hp] at h
        obtain rfl := Option.some.inj h
        exact ⟨hp, [], t, rfl, by simp⟩
      · rw [List.find?_cons_of_neg t hp] at h
        obtain ⟨hpb, pre, post, rfl, hpre⟩ := ih b h
        refine ⟨hpb, a :: pre, post, rfl, ?_⟩
        intro c hc
        rcases List.mem_cons.mp hc with rfl | hc
        · exact Bool.not_eq_true _ ▸ (Bool.eq_false_iff.mpr (fun he => hp he))
        · exact hpre c hc

theorem candidates_pairwise_lex {alphabet : List Nat}
    (h : alphabet.Pairwise (· < ·)) :
    ∀ N : Nat, (candidates alphabet N).Pairwise (List.Lex (· < ·)) := by
  intro N
  induction N with
  | zero => simp [candidates]
  | succ n ih =>
      simp only [candidates]
      rw [List.pairwise_flatten]
      constructor
      · intro s hs
        obtain ⟨a, -, rfl⟩ := List.mem_map.mp hs
        rw [List.pairwise_map]
        exact ih.imp fun hlex => List.Lex.cons hlex
      · rw [List.pairwise_map]
        refine h.imp ?_
        intro a b hab x hx y hy
        obtain ⟨t, -, rfl⟩ := List.mem_map.mp hx
        obtain ⟨u, -, rfl⟩ := List.mem_map.mp hy
        exact List.Lex.rel hab

/-- C7: the bounded search engine (modelled from the spec, §4.3).  For
every block `b` of length `N` over the alphabet, searching for `digest b`
returns some block of length `N` over the alphabet with the same digest —
the first match in the enumeration of `alphabet^N`, an enumeration that is
lexicographic (most significant position slowest) whenever the alphabet is
listed in increasing order — and the search fails with `NoCandidateFound`
exactly when no candidate in `alphabet^N` matches the target digest. -/
theorem claim_C7_bounded_search (target : DigestRecord) (N : Nat)
    (alphabet : List Nat) (b : List Nat)
    (hsorted : alphabet.Pairwise (· < ·))
    (hlen : b.length = N) (halpha : ∀ x ∈ b, x ∈ alphabet)
    (ht : target = digest b) :
    (∃ b1, search target N alphabet = .ok b1 ∧ b1.length = N ∧
        (∀ x ∈ b1, x ∈ alphabet) ∧ digest b1 = digest b ∧
        ∃ pre post, candidates alphabet N = pre ++ b1 :: post ∧
          ∀ c ∈ pre, digest c ≠ target)
    ∧ (candidates alphabet N).Pairwise (List.Lex (· < ·))
    ∧ (∀ t1 : DigestRecord,
        search t1 N alphabet = .error CodecError.noCandidateFound ↔
          ∀ c ∈ candidates alphabet N, digest c ≠ t1) := by
  refine ⟨?_, candidates_pairwise_lex hsorted N, ?_⟩
  · have hbmem : b ∈ candidates alphabet N := mem_candidates.mpr ⟨hlen, halpha⟩
    have hpb : (fun c => digest c == target) b = true := by
      simp [ht]
    have hsome : ∃ b1, (candidates alphabet N).find? (fun c => digest c == target) =
        some b1 := by
      cases hf : (candidates alphabet N).find? fun c => digest c == target with
      | none =>
          rw [List.find?_eq_none] at hf
          exact absurd hpb (by simpa using hf b hbmem)
      | some b1 => exact ⟨b1, rfl⟩
    obtain ⟨b1, hb1⟩ := hsome
    obtain ⟨hpb1, pre, post, hseq, hpre⟩ := find?_eq_some_split _ _ _ hb1
    have hb1mem : b1 ∈ candidates alphabet N := by
      rw [hseq]; exact List.mem_append.mpr (Or.inr (List.mem_cons_self b1 post))
    obtain ⟨hb1len, hb1alpha⟩ := mem_candidates.mp hb1mem
    refine ⟨b1, ?_, hb1len, hb1alpha, ?_, pre, post, hseq, ?_⟩
    · unfold search
      rw [hb1]
    · have hbe : digest b1 = target := of_decide_eq_true (by simpa [BEq.beq] using hpb1)
      rw [ht] at hbe
      exact hbe
    · intro c hc
      have := hpre c hc
      simpa using this
  · intro t1
    unfold search
    cases hf : (candidates alphabet N).find? fun c => digest c == t1 with
    | none =>
        simp only []
        rw [List.find?_eq_none] at hf
        constructor
        · intro _ c hc
          have := hf c hc
          simpa using this
        · intro _; trivial
    | some b1 =>
        simp only []
        constructor
        · intro he; exact absurd he (by simp)
        · intro hall
          obtain ⟨hpb1, pre, post, hseq, -⟩ := find?_eq_some_split _ _ _ hf
          have hb1mem : b1 ∈ candidates alphabet N := by
            rw [hseq]; exact List.mem_append.mpr (Or.inr (List.mem_cons_self b1 post))
          have := hall b1 hb1mem
          exact absurd (by simpa using hpb1) this

theorem claim_C7_bounded_search_witness :
    (∃ b1, search (digest [1]) 1 [0, 1, 2] = .ok b1 ∧ b1.length = 1 ∧
        (∀ x ∈ b1, x ∈ [0, 1, 2]) ∧ digest b1 = digest [1] ∧
        ∃ pre post, candidates [0, 1, 2] 1 = pre ++ b1 :: post ∧
          ∀ c ∈ pre, digest c ≠ digest [1])
    ∧ (candidates [0, 1, 2] 1).Pairwise (List.Lex (· < ·))
    ∧ (∀ t1 : DigestRecord,
        search t1 1 [0, 1, 2] = .error CodecError.noCandidateFound ↔
          ∀ c ∈ candidates [0, 1, 2] 1, digest c ≠ t1) :=
  claim_C7_bounded_search (digest [1]) 1 [0, 1, 2] [1] (by decide) rfl
    (by decide) rfl

/-! ## Claim C8: parallel engine tie-break determinism -/

theorem foldl_min_le_init : ∀ (l : List Nat) (b : Nat), l.foldl min b ≤ b := by
  intro l
  induction l with
  | nil => intro b; exact Nat.le_refl b
  | cons a t ih =>
      intro b
      calc (a :: t).foldl min b = t.foldl min (min b a) := rfl
        _ ≤ min b a := ih (min b a)
        _ ≤ b := Nat.min_le_left b a

theorem foldl_min_le_mem : ∀ (l : List Nat) (b g : Nat), g ∈ l → l.foldl min b ≤ g := by
  intro l
  induction l with
  | nil => intro b g hg; simp at hg
  | cons a t ih =>
      intro b g hg
      rcases List.mem_cons.mp hg with rfl | hg
      · calc (g :: t).foldl min b = t.foldl min (min b g) := rfl
          _ ≤ min b g := foldl_min_le_init t _
          _ ≤ g := Nat.min_le_right b g
      · exact ih (min b a) g hg

theorem foldl_min_mem : ∀ (l : List Nat) (b : Nat), l.foldl min b = b ∨ l.foldl min b ∈ l := by
  intro l
  induction l with
  | nil => intro b; exact Or.inl rfl
  | cons a t ih =>
      intro b
      rcases ih (min b a) with h | h
      · rcases min_choice b a with hb | ha
        · exact Or.inl (by rw [show (a :: t).foldl min b = t.foldl min (min b a) from rfl, h, hb])
        · refine Or.inr ?_
          rw [show (a :: t).foldl min b = t.foldl min (min b a) from rfl, h, ha]
          exact List.mem_cons_self a t
      · exact Or.inr (List.mem_cons_of_mem a h)

theorem engineCell_perm {N : Nat} {w1 w2 : List Nat} (h : w1.Perm w2) :
    engineCell N w1 = engineCell N w2 := by
  unfold engineCell
  haveI : RightCommutative (min : Nat → Nat → Nat) := ⟨fun b a1 a2 => by omega⟩
  exact h.foldl_eq (256 ^ N)

theorem engineResult_perm {N : Nat} {w1 w2 : List Nat} (h : w1.Perm w2) :
    engineResult N w1 = engineResult N w2 := by
  unfold engineResult
  rw [engineCell_perm h]

theorem reconstructBlocks_perm (N : Nat) :
    ∀ {records : List DigestRecord} {o1 o2 : List (List Nat)},
      List.Forall₂ (fun w r => w.Perm (matchingGids r N)) o1 records →
      List.Forall₂ (fun w r => w.Perm (matchingGids r N)) o2 records →
      reconstructBlocks N o1 = reconstructBlocks N o2 := by
  intro records
  induction records with
  | nil =>
      intro o1 o2 h1 h2
      cases h1; cases h2; rfl
  | cons r rest ih =>
      intro o1 o2 h1 h2
      cases h1 with
      | cons hw1 ht1 =>
          cases h2 with
          | cons hw2 ht2 =>
              show (match engineResult N _, reconstructBlocks N _ with
                    | some b, some p => some (b ++ p) | _, _ => none) =
                   (match engineResult N _, reconstructBlocks N _ with
                    | some b, some p => some (b ++ p) | _, _ => none)
              rw [engineResult_perm hw1, ← engineResult_perm hw2, ih ht1 ht2]

/-- C8: the parallel search engine (modelled from the spec, §4.4/§5).  The
per-block result cell, reduced by atomic minimum over the matching
workers' writes, holds the numerically lowest matching `gid` (or the
sentinel when no candidate matches) regardless of the order in which
workers complete; consequently two runs of the engine over the same
Digest Stream — two arbitrary completion orders — recover bit-identical
payloads. -/
theorem claim_C8_parallel_determinism (N : Nat) (records : List DigestRecord)
    (o1 o2 : List (List Nat))
    (h1 : List.Forall₂ (fun w r => w.Perm (matchingGids r N)) o1 records)
    (h2 : List.Forall₂ (fun w r => w.Perm (matchingGids r N)) o2 records) :
    reconstruct N o1 = reconstruct N o2
    ∧ (∀ (w : List Nat) (r : DigestRecord), w.Perm (matchingGids r N) →
        (∀ g ∈ matchingGids r N, engineCell N w ≤ g) ∧
        (engineCell N w = 256 ^ N ∨ engineCell N w ∈ matchingGids r N)) := by
  constructor
  · unfold reconstruct
    rw [reconstructBlocks_perm N h1 h2]
  · intro w r hperm
    constructor
    · intro g hg
      rw [engineCell_perm hperm]
      exact foldl_min_le_mem _ _ _ hg
    · rw [engineCell_perm hperm]
      exact foldl_min_mem _ _

theorem claim_C8_parallel_determinism_witness :
    reconstruct 1 [matchingGids (digest [0]) 1] =
      reconstruct 1 [(matchingGids (digest [0]) 1).reverse]
    ∧ (∀ (w : List Nat) (r : DigestRecord), w.Perm (matchingGids r 1) →
        (∀ g ∈ matchingGids r 1, engineCell 1 w ≤ g) ∧
        (engineCell 1 w = 256 ^ 1 ∨ engineCell 1 w ∈ matchingGids r 1)) :=
  claim_C8_parallel_determinism 1 [digest [0]]
    [matchingGids (digest [0]) 1] [(matchingGids (digest [0]) 1).reverse]
    (List.Forall₂.cons (List.Perm.refl _) List.Forall₂.nil)
    (List.Forall₂.cons (List.reverse_perm _) List.Forall₂.nil)

end SCC
